import Mathlib

/-!
Verification of the cspf package (graph.go): a constrained shortest-path-first
library.  The data model and every operation the claims mention are embedded
shallowly: Go maps become association lists with a fixed iteration order (a
deterministic refinement of Go's unspecified map order), uint64 arithmetic is
Nat arithmetic modulo 2^64, fallible operations return Except, and in-place
mutation of a Graph receiver is explicit state passing.
-/

set_option autoImplicit false

namespace Cspf

/-- Vertex mirrors the Go struct: an ID string; equality is by ID.
The Go zero value is the vertex with the empty ID. -/
structure Vertex where
  ID : String
deriving DecidableEq, Repr

/-- The Go zero value of the Vertex struct, produced for example by
getSmallestDistanceVertex when no unvisited vertex has a finite distance. -/
def zeroVertex : Vertex := ⟨""⟩

/-- Values storable in an edge tag (Go interface\x7b\x7d values as used by the
package: the claims only inspect tags through the abstract predicate, so a
small closed universe of typed values suffices). -/
inductive GoValue where
  | str (s : String)
  | int (n : Int)
  | bool (b : Bool)
deriving DecidableEq, Repr

/-- The map from tag keys to values carried by an edge
(Go map[string]interface\x7b\x7d), as an association list. -/
abbrev TagMap := List (String × GoValue)

/-- Tag mirrors the Go struct: a key/value pair attached to an edge. -/
structure Tag where
  Key : String
  Value : GoValue
deriving DecidableEq, Repr

/-- Edge mirrors the Go struct: a directed edge with a uint64 cost
(represented as a Nat below 2^64) and a tag map. -/
structure Edge where
  From : Vertex
  To : Vertex
  Cost : Nat
  Tags : TagMap
deriving DecidableEq, Repr

/-- A compiled constraint predicate: the external gval collaborator's
Evaluable, evaluated on an edge's tag map; it yields a boolean or fails. -/
def Pred := TagMap → Except String Bool

/-- The errors the package can surface: ErrNilGraph, ErrDuplicateTagKey
wrapped with the offending key, and the external evaluator's parse and
evaluation errors (abstract messages). -/
inductive GoError where
  | nilGraph
  | duplicateTagKey (key : String)
  | parseError (msg : String)
  | evalError (msg : String)

/-- Graph mirrors the Go struct: the vertex set with outgoing-edge lists
(a Go map, modelled as an association list whose order fixes the map's
iteration order), plus the private eval field holding the installed
constraint predicate, if any. -/
structure Graph where
  VertexSet : List (Vertex × List Edge)
  eval : Option Pred

/-- The Go zero value Graph\x7b\x7d: nil vertex map, nil evaluator. -/
def emptyGraph : Graph := ⟨[], none⟩

section AList

variable {κ β : Type} [DecidableEq κ]

/-- Lookup in an association list: the value at the first matching key. -/
def lookupA : List (κ × β) → κ → Option β
  | [], _ => none
  | (k, v) :: rest, key => if key = k then some v else lookupA rest key

/-- Go map read with the type's zero value as default. -/
def lookupD (m : List (κ × β)) (key : κ) (dfl : β) : β :=
  (lookupA m key).getD dfl

/-- Go two-result map read: whether the key is present. -/
def containsKey (m : List (κ × β)) (key : κ) : Bool :=
  (lookupA m key).isSome

/-- Go map write: replace the value at an existing key in place, otherwise
append the binding at the end of the iteration order. -/
def insertA : List (κ × β) → κ → β → List (κ × β)
  | [], key, v => [(key, v)]
  | (k, w) :: rest, key, v =>
    if key = k then (k, v) :: rest else (k, w) :: insertA rest key v

end AList

/-- The modulus of Go uint64 arithmetic. -/
def U64MOD : Nat := 2 ^ 64

/-- The package's infinity constant: math.MaxUint64. -/
def INF : Nat := U64MOD - 1

/-- Go uint64 addition: wraps around modulo 2^64. -/
def addU64 (a b : Nat) : Nat := (a + b) % U64MOD

/-- AddNode: idempotently ensure a vertex is present with an edge list
(the Go initGraph nil-map guard is absorbed by the empty list). -/
def Graph.AddNode (g : Graph) (v : Vertex) : Graph :=
  if containsKey g.VertexSet v then g
  else { g with VertexSet := g.VertexSet ++ [(v, [])] }

/-- The private addEdge: ensure both endpoints exist, then append the edge
to the source vertex's outgoing list. -/
def Graph.addEdge (g : Graph) (e : Edge) : Graph :=
  let g1 := (g.AddNode e.From).AddNode e.To
  { g1 with
    VertexSet := insertA g1.VertexSet e.From (lookupD g1.VertexSet e.From [] ++ [e]) }

/-- The tag-map building loop inside AddEdge: inserts each tag in order and
fails with ErrDuplicateTagKey at the first tag whose key is already bound. -/
def buildTagMap : List Tag → TagMap → Except GoError TagMap
  | [], acc => .ok acc
  | t :: rest, acc =>
    if containsKey acc t.Key then .error (.duplicateTagKey t.Key)
    else buildTagMap rest (insertA acc t.Key t.Value)

/-- AddEdge: build the edge (validating tag keys) and, on success, add it
via the private addEdge.  The pair carries the Go error result alongside the
receiver's state after the call (mutation made explicit). -/
def Graph.AddEdge (g : Graph) (src dst : Vertex) (cost : Nat) (tags : List Tag) :
    Except GoError Unit × Graph :=
  match buildTagMap tags [] with
  | .error err => (.error err, g)
  | .ok tm => (.ok (), g.addEdge ⟨src, dst, cost, tm⟩)

/-- getSmallestDistanceVertex: fold over the unvisited set (in the fixed
iteration order) keeping the first vertex whose distance is strictly below
the best so far; starts from infinity and the zero Vertex. -/
def getSmallestDistanceVertex (unvisited : List Vertex) (distSet : List (Vertex × Nat)) :
    Vertex :=
  (unvisited.foldl
    (fun acc v =>
      let d := lookupD distSet v 0
      if d < acc.1 then (d, v) else acc)
    (INF, zeroVertex)).2

/-- edgeSatisfiesConstranints (source spelling): vacuously true when no
predicate is installed, otherwise the predicate evaluated on the edge's tags,
propagating its failure. -/
def edgeSatisfiesConstranints : Option Pred → Edge → Except String Bool
  | none, _ => .ok true
  | some ev, e =>
    match ev e.Tags with
    | .error err => .error err
    | .ok b => .ok b

/-- One iteration of the relaxation inner loop, for a single outgoing edge of
the selected vertex: skip if the target is already visited or the constraints
reject the edge; abort on evaluation failure; otherwise compare the candidate
distance (uint64 addition) with the target's recorded distance and, when it
is less than or equal, write the candidate distance and append the edge to
the target's predecessor list. -/
def relaxOne (evalOpt : Option Pred) (unvisited : List Vertex) (closest : Vertex)
    (distSet : List (Vertex × Nat)) (prevSet : List (Vertex × List Edge)) (e : Edge) :
    Except String (List (Vertex × Nat) × List (Vertex × List Edge)) :=
  if e.To ∈ unvisited then
    match edgeSatisfiesConstranints evalOpt e with
    | .error err => .error err
    | .ok sat =>
      if sat then
        let distFromNeighbor := addU64 (lookupD distSet closest 0) e.Cost
        if distFromNeighbor ≤ lookupD distSet e.To 0 then
          .ok (insertA distSet e.To distFromNeighbor,
               insertA prevSet e.To (lookupD prevSet e.To [] ++ [e]))
        else .ok (distSet, prevSet)
      else .ok (distSet, prevSet)
  else .ok (distSet, prevSet)

/-- The relaxation inner loop over the selected vertex's outgoing edges. -/
def relaxEdges (evalOpt : Option Pred) (unvisited : List Vertex) (closest : Vertex) :
    List Edge → List (Vertex × Nat) → List (Vertex × List Edge) →
    Except String (List (Vertex × Nat) × List (Vertex × List Edge))
  | [], distSet, prevSet => .ok (distSet, prevSet)
  | e :: rest, distSet, prevSet =>
    match relaxOne evalOpt unvisited closest distSet prevSet e with
    | .error err => .error err
    | .ok (d2, p2) => relaxEdges evalOpt unvisited closest rest d2 p2

/-- The SPF main loop.  Each iteration selects the unvisited vertex with the
smallest distance, deletes it, breaks when the deletion made no progress
(nothing could be selected), and otherwise relaxes its outgoing edges.  The
fuel argument is set to the unvisited set's size by spfRun; since every
non-breaking iteration shrinks the set by exactly one, the zero-fuel case
coincides with the loop's normal exit condition. -/
def spfLoop (g : Graph) :
    Nat → List Vertex → List (Vertex × Nat) → List (Vertex × List Edge) →
    Except String (List (Vertex × Nat) × List (Vertex × List Edge))
  | 0, _, distSet, prevSet => .ok (distSet, prevSet)
  | fuel + 1, unvisitedSet, distSet, prevSet =>
    if unvisitedSet.isEmpty then .ok (distSet, prevSet)
    else
      let closestVertex := getSmallestDistanceVertex unvisitedSet distSet
      let unvisited2 := unvisitedSet.erase closestVertex
      if unvisited2.length = unvisitedSet.length then .ok (distSet, prevSet)
      else
        match relaxEdges g.eval unvisited2 closestVertex
            (lookupD g.VertexSet closestVertex []) distSet prevSet with
        | .error err => .error err
        | .ok (d2, p2) => spfLoop g fuel unvisited2 d2 p2

/-- The unvisited set as initialized by SPF: every vertex of the graph, in
the fixed iteration order. -/
def initUnvisited (g : Graph) : List Vertex :=
  g.VertexSet.map Prod.fst

/-- The distance map as initialized by SPF: every vertex at infinity, then
the source forced to zero (adding the source as a key if absent). -/
def initDist (g : Graph) (src : Vertex) : List (Vertex × Nat) :=
  insertA (g.VertexSet.map (fun p => (p.1, INF))) src 0

/-- The predecessor map as initialized by SPF: every vertex with an empty
edge list. -/
def initPrev (g : Graph) : List (Vertex × List Edge) :=
  g.VertexSet.map (fun p => (p.1, ([] : List Edge)))

/-- The whole relaxation phase of SPF: initialization plus the main loop. -/
def spfRun (g : Graph) (src : Vertex) :
    Except String (List (Vertex × Nat) × List (Vertex × List Edge)) :=
  let unvisitedSet := initUnvisited g
  spfLoop g unvisitedSet.length unvisitedSet (initDist g src) (initPrev g)

/-- Result construction of SPF: insert every edge of every vertex's
predecessor list into a fresh Graph, in the fixed iteration order. -/
def buildGraph (prevSet : List (Vertex × List Edge)) : Graph :=
  prevSet.foldl (fun acc p => p.2.foldl Graph.addEdge acc) emptyGraph

/-- SPF on a non-nil receiver: run the relaxation, then build the result
graph when the destination has an entry in the predecessor map or equals the
source, and return the empty Graph otherwise. -/
def SPFcore (g : Graph) (src dst : Vertex) : Except String Graph :=
  match spfRun g src with
  | .error err => .error err
  | .ok (_, prevSet) =>
    .ok (if containsKey prevSet dst ∨ dst = src then buildGraph prevSet else emptyGraph)

/-- SPF on the pointer receiver: a nil receiver yields ErrNilGraph and a nil
graph, otherwise SPFcore with evaluation failures wrapped. -/
def SPF (g : Option Graph) (src dst : Vertex) : Except GoError Graph :=
  match g with
  | none => .error .nilGraph
  | some gr =>
    match SPFcore gr src dst with
    | .error err => .error (.evalError err)
    | .ok r => .ok r

/-- CSPF on the pointer receiver: nil check, then compile the expression via
the external gval collaborator (passed as a parameter), install the compiled
predicate on the instance, and delegate to SPF.  The pair carries the result
alongside the receiver's state after the call. -/
def CSPF (compile : String → Except String Pred) (g : Option Graph)
    (src dst : Vertex) (exp : String) : Except GoError Graph × Option Graph :=
  match g with
  | none => (.error .nilGraph, none)
  | some gr =>
    match compile exp with
    | .error err => (.error (.parseError err), some gr)
    | .ok ev =>
      let gr2 := { gr with eval := some ev }
      (match SPFcore gr2 src dst with
       | .error err => .error (.evalError err)
       | .ok r => .ok r,
       some gr2)

/-- The traversal state shared by the closures of Paths: the visited set,
the current path, and the accumulated result paths. -/
structure DfsSt where
  visited : List Vertex
  path : List Edge
  paths : List (List Edge)
deriving DecidableEq, Repr

/-- Marking a vertex visited (Go map write of true). -/
def insertV (l : List Vertex) (v : Vertex) : List Vertex :=
  if v ∈ l then l else v :: l

/-- Un-marking a vertex (Go map write of false). -/
def removeV (l : List Vertex) (v : Vertex) : List Vertex :=
  l.filter (fun x => decide (x ≠ v))

/-- A vertex's outgoing-edge list, empty when the vertex is absent
(ranging over a missing Go map entry). -/
def adjOf (g : Graph) (v : Vertex) : List Edge :=
  lookupD g.VertexSet v []

/-- Entering a vertex in the dfs closure: mark it visited and append the
incoming edge (when there is one) to the shared path. -/
def dfsEnter (st : DfsSt) (v : Vertex) (eo : Option Edge) : DfsSt :=
  { visited := insertV st.visited v,
    path := match eo with
      | some e => st.path ++ [e]
      | none => st.path,
    paths := st.paths }

/-- Leaving a vertex in the dfs closure: when the shared path is non-empty,
drop its FIRST element (the source writes path = path[1:]), and un-mark the
vertex. -/
def dfsLeave (st2 : DfsSt) (v : Vertex) : DfsSt :=
  { st2 with
    path := if st2.path.isEmpty then st2.path else st2.path.tail,
    visited := removeV st2.visited v }

/-- The recursive dfs closure of Paths, defunctionalized: an inl argument is
a call dfs(v, edge) of the Go closure, an inr argument is the loop over the
remaining outgoing edges of the current vertex.  Entering a vertex marks it
visited and appends the incoming edge to the shared path; reaching the
destination records the current path; leaving pops the front of the shared
path and un-marks the vertex.  Fuel only bounds the recursion depth; Paths
supplies enough fuel for the none case to be unreachable (proved below). -/
def dfsStep (g : Graph) (dst : Vertex) :
    Nat → (Vertex × Option Edge) ⊕ List Edge → DfsSt → Option DfsSt
  | 0, _, _ => none
  | fuel + 1, .inl (v, eo), st =>
    match (if v = dst
        then some { dfsEnter st v eo with
                    paths := (dfsEnter st v eo).paths ++ [(dfsEnter st v eo).path] }
        else dfsStep g dst fuel (.inr (adjOf g v)) (dfsEnter st v eo)) with
    | none => none
    | some st2 => some (dfsLeave st2 v)
  | _ + 1, .inr [], st => some st
  | fuel + 1, .inr (e :: rest), st =>
    if e.To ∈ st.visited then dfsStep g dst fuel (.inr rest) st
    else
      match dfsStep g dst fuel (.inl (e.To, some e)) st with
      | none => none
      | some st2 => dfsStep g dst fuel (.inr rest) st2

/-- Every edge target of the graph, in iteration order. -/
def targetsOf (g : Graph) : List Vertex :=
  g.VertexSet.foldr (fun p acc => p.2.map Edge.To ++ acc) []

/-- The longest outgoing-edge list of any vertex. -/
def maxAdj (g : Graph) : Nat :=
  g.VertexSet.foldr (fun p acc => max p.2.length acc) 0

/-- A recursion-depth budget sufficient for the whole dfs traversal (proved
sufficient below): the visited set can only grow inside the start vertex and
the edge targets, and each level descends through at most one adjacency
list. -/
def fuelBound (g : Graph) (src : Vertex) : Nat :=
  ((src :: targetsOf g).length + 1) * (maxAdj g + 2)

/-- How many vertices of the universe U are not yet visited: the measure
that bounds the depth of the dfs recursion. -/
def cntUnvisited (U visited : List Vertex) : Nat :=
  (U.filter (fun u => decide (u ∉ visited))).length

/-- Paths: nil receiver yields the empty sequence; otherwise run the dfs
closure from the start vertex with no incoming edge and empty state, and
return the accumulated paths. -/
def Paths (g : Option Graph) (src dst : Vertex) : List (List Edge) :=
  match g with
  | none => []
  | some gr =>
    match dfsStep gr dst (fuelBound gr src) (.inl (src, none)) ⟨[], [], []⟩ with
    | some st => st.paths
    | none => []

section Scratch

/-- Scratch vertices for testing. -/
def va : Vertex := ⟨"a"⟩
def vb : Vertex := ⟨"b"⟩
def vc : Vertex := ⟨"c"⟩
def vd : Vertex := ⟨"d"⟩

def eAB : Edge := ⟨va, vb, 1, []⟩
def eBC : Edge := ⟨vb, vc, 1, []⟩
def eBD : Edge := ⟨vb, vd, 1, []⟩

def g1 : Graph := ⟨[(va, [eAB]), (vb, [eBC, eBD]), (vc, []), (vd, [])], none⟩

def ve : Vertex := ⟨"e"⟩

def dAB : Edge := ⟨va, vb, 1, []⟩
def dAC : Edge := ⟨va, vc, 1, []⟩
def dBD : Edge := ⟨vb, vd, 1, []⟩
def dCD : Edge := ⟨vc, vd, 1, []⟩

/-- The diamond graph of TestSPF, as built by the four AddEdge calls. -/
def gDiamond : Graph :=
  ⟨[(va, [dAB, dAC]), (vb, [dBD]), (vc, [dCD]), (vd, [])], none⟩

def cAB : Edge := ⟨va, vb, 1, []⟩
def cBC : Edge := ⟨vb, vc, 1, []⟩
def cCD : Edge := ⟨vc, vd, 1, []⟩
def cDA : Edge := ⟨vd, va, 1, []⟩
def cDE : Edge := ⟨vd, ve, 1, []⟩

/-- The 4-cycle with tail of TestSPFWithCycle. -/
def gCycle : Graph :=
  ⟨[(va, [cAB]), (vb, [cBC]), (vc, [cCD]), (vd, [cDA, cDE]), (ve, [])], none⟩

/-- A constraint predicate that rejects every edge. -/
def predFalse : Pred := fun _ => .ok false

/-- A constraint predicate whose evaluation always fails. -/
def predBoom : Pred := fun _ => .error "boom"

/-- A compile function (standing for the external gval collaborator) that
succeeds with the always-false predicate. -/
def compileOkW : String → Except String Pred := fun _ => .ok predFalse

/-- A compile function that always fails to parse. -/
def compileErrW : String → Except String Pred := fun _ => .error "badparse"

/-- The graph used to witness C8: one edge, with an installed predicate
whose evaluation always fails. -/
def g8 : Graph := ⟨[(va, [eAB]), (vb, [])], some predBoom⟩

/-- Duplicate-key tag list used to witness C5 (same key twice). -/
def tagsDup : List Tag := [⟨"link", .str "blue"⟩, ⟨"link", .str "red"⟩]

/-- Distinct-key tag list used to witness C5. -/
def tagsOk : List Tag := [⟨"link", .str "blue"⟩, ⟨"metric", .int 3⟩]

/-- Edge leaving the zero-ID vertex, used against C3: its relaxation uses a
wrapping uint64 sum on top of an infinite distance. -/
def zb : Edge := ⟨zeroVertex, vb, 5, []⟩

/-- A graph that contains the zero-ID vertex (with an outgoing edge), used
against C3. -/
def g3 : Graph := ⟨[(zeroVertex, [zb]), (vb, [])], none⟩

/-- A graph with an isolated vertex vc (unreachable destination that is
still a key of the vertex map), used against C2. -/
def g2c : Graph := ⟨[(va, [eAB]), (vb, []), (vc, [])], none⟩

end Scratch

/-- Endpoint closure: every edge's target is a key of the vertex map — the
invariant AddEdge maintains on every graph it builds. -/
def edgeClosed (g : Graph) : Prop :=
  ∀ p ∈ g.VertexSet, ∀ e ∈ p.2, containsKey g.VertexSet e.To = true

section AListLemmas

variable {κ β : Type} [DecidableEq κ]

theorem lookupA_insertA_self (m : List (κ × β)) (k : κ) (v : β) :
    lookupA (insertA m k v) k = some v := by
  induction m with
  | nil => simp [insertA, lookupA]
  | cons p rest ih =>
    obtain ⟨k', w⟩ := p
    by_cases h : k = k'
    · simp [insertA, lookupA, h]
    · simp [insertA, lookupA, h, ih]

theorem lookupA_insertA_ne (m : List (κ × β)) (k k' : κ) (v : β) (h : k' ≠ k) :
    lookupA (insertA m k v) k' = lookupA m k' := by
  induction m with
  | nil => simp [insertA, lookupA, h]
  | cons p rest ih =>
    obtain ⟨k'', w⟩ := p
    by_cases h2 : k = k''
    · subst h2
      simp [insertA, lookupA, h]
    · by_cases h3 : k' = k''
      · simp [insertA, lookupA, h2, h3]
      · simp [insertA, lookupA, h2, h3, ih]

theorem containsKey_insertA (m : List (κ × β)) (k k' : κ) (v : β) :
    containsKey (insertA m k v) k' = (containsKey m k' || decide (k' = k)) := by
  by_cases h : k' = k
  · subst h
    simp [containsKey, lookupA_insertA_self]
  · simp [containsKey, lookupA_insertA_ne m k k' v h, h]

theorem lookupD_insertA_self (m : List (κ × β)) (k : κ) (v dfl : β) :
    lookupD (insertA m k v) k dfl = v := by
  simp [lookupD, lookupA_insertA_self]

theorem lookupD_insertA_ne (m : List (κ × β)) (k k' : κ) (v dfl : β) (h : k' ≠ k) :
    lookupD (insertA m k v) k' dfl = lookupD m k' dfl := by
  simp [lookupD, lookupA_insertA_ne m k k' v h]

end AListLemmas

example : Paths (some g1) va vd = [[eBC, eBD]] := by decide

example :
    (((((emptyGraph.AddEdge va vb 1 []).2).AddEdge va vc 1 []).2.AddEdge vb vd 1 []).2.AddEdge vc vd 1 []).2.VertexSet
      = gDiamond.VertexSet := by decide

example :
    SPF (some gDiamond) va vd
      = .ok ⟨[(va, [dAB, dAC]), (vb, [dBD]), (vc, [dCD]), (vd, [])], none⟩ := by rfl

example :
    Paths (some ⟨[(va, [dAB, dAC]), (vb, [dBD]), (vc, [dCD]), (vd, [])], none⟩) va vd
      = [[dAB, dBD], [dAC, dCD]] := by decide

example :
    SPF (some gCycle) va ve
      = .ok ⟨[(va, [cAB]), (vb, [cBC]), (vc, [cCD]), (vd, [cDE]), (ve, [])], none⟩ := by rfl

example :
    Paths (some ⟨[(va, [cAB]), (vb, [cBC]), (vc, [cCD]), (vd, [cDE]), (ve, [])], none⟩) va ve
      = [[cAB, cBC, cCD, cDE]] := by decide

/-- C6: invoking SPF or CSPF on a nil Graph receiver returns the NilGraph
error with a nil result graph (the error side of Except carries no graph),
invoking Paths on a nil receiver returns the empty sequence, and — the
embedding being total functions — none of the three panics. -/
theorem c6_nil_receiver (compile : String → Except String Pred)
    (src dst : Vertex) (exp : String) :
    SPF none src dst = .error .nilGraph ∧
    CSPF compile none src dst exp = (.error .nilGraph, none) ∧
    Paths none src dst = [] :=
  ⟨rfl, rfl, rfl⟩

/-- C10: when the expression fails to compile, CSPF returns the parse error
and leaves the receiver's state — in particular its stored predicate —
exactly as it was, so an earlier installed predicate stays in effect. -/
theorem c10_parse_error_keeps_state (compile : String → Except String Pred)
    (g : Graph) (src dst : Vertex) (exp msg : String)
    (h : compile exp = .error msg) :
    CSPF compile (some g) src dst exp = (.error (.parseError msg), some g) := by
  simp [CSPF, h]

/-- Witness for C10 at a concrete failing compile function and graph. -/
theorem c10_witness :
    CSPF compileErrW (some g1) va vb "x" = (.error (.parseError "badparse"), some g1) :=
  c10_parse_error_keeps_state compileErrW g1 va vb "x" "badparse" rfl

/-- C7: after a successful CSPF the compiled predicate stays installed on the
instance, so a later plain SPF call on that instance is the constrained
computation with that predicate; edges satisfy constraints vacuously only
under an absent predicate, while an installed predicate is really evaluated
on each edge's tags. -/
theorem c7_predicate_persists (compile : String → Except String Pred)
    (g : Graph) (src dst src2 dst2 : Vertex) (exp : String) (p : Pred)
    (h : compile exp = .ok p) :
    (CSPF compile (some g) src dst exp).2 = some { g with eval := some p } ∧
    SPF (CSPF compile (some g) src dst exp).2 src2 dst2
      = SPF (some { g with eval := some p }) src2 dst2 ∧
    (∀ e : Edge, edgeSatisfiesConstranints (some p) e
      = match p e.Tags with
        | .error err => .error err
        | .ok b => .ok b) ∧
    (∀ e : Edge, edgeSatisfiesConstranints none e = .ok true) := by
  refine ⟨?_, ?_, fun e => rfl, fun e => rfl⟩
  · simp [CSPF, h]
  · simp [CSPF, h]

/-- Witness for C7 at a concrete compile function and graph. -/
theorem c7_witness :
    (CSPF compileOkW (some g1) va vd "x").2 = some { g1 with eval := some predFalse } ∧
    SPF (CSPF compileOkW (some g1) va vd "x").2 va vd
      = SPF (some { g1 with eval := some predFalse }) va vd ∧
    (∀ e : Edge, edgeSatisfiesConstranints (some predFalse) e
      = match predFalse e.Tags with
        | .error err => .error err
        | .ok b => .ok b) ∧
    (∀ e : Edge, edgeSatisfiesConstranints none e = .ok true) :=
  c7_predicate_persists compileOkW g1 va vd va vd "x" predFalse rfl

theorem relaxEdges_append (evalOpt : Option Pred) (unvisited : List Vertex)
    (closest : Vertex) (l1 l2 : List Edge)
    (distSet : List (Vertex × Nat)) (prevSet : List (Vertex × List Edge)) :
    relaxEdges evalOpt unvisited closest (l1 ++ l2) distSet prevSet
      = match relaxEdges evalOpt unvisited closest l1 distSet prevSet with
        | .error err => .error err
        | .ok (d1, p1) => relaxEdges evalOpt unvisited closest l2 d1 p1 := by
  induction l1 generalizing distSet prevSet with
  | nil => simp [relaxEdges]
  | cons e rest ih =>
    simp only [List.cons_append, relaxEdges]
    cases hr : relaxOne evalOpt unvisited closest distSet prevSet e with
    | error err => simp
    | ok dp => cases dp with
      | mk d1 p1 => simp [ih]

/-- C8: an evaluation failure of the installed predicate during relaxation
aborts the whole computation at the first failing edge — the remaining edges
are not processed — and SPF surfaces that evaluation error with no (partial)
result graph. -/
theorem c8_eval_failure_aborts (g : Graph) (src dst : Vertex) :
    (∀ err : String, spfRun g src = .error err →
      SPF (some g) src dst = .error (.evalError err)) ∧
    (∀ (unvisited : List Vertex) (closest : Vertex) (pre post : List Edge) (e : Edge)
        (distSet d1 : List (Vertex × Nat)) (prevSet p1 : List (Vertex × List Edge))
        (err : String),
      relaxEdges g.eval unvisited closest pre distSet prevSet = .ok (d1, p1) →
      relaxOne g.eval unvisited closest d1 p1 e = .error err →
      relaxEdges g.eval unvisited closest (pre ++ e :: post) distSet prevSet
        = .error err) := by
  constructor
  · intro err h
    simp [SPF, SPFcore, h]
  · intro unvisited closest pre post e distSet d1 prevSet p1 err h1 h2
    rw [relaxEdges_append, h1]
    simp [relaxEdges, h2]

/-- Witness for C8: on a concrete graph whose predicate fails to evaluate,
SPF returns the evaluation error and no graph. -/
theorem c8_witness : SPF (some g8) va vb = .error (.evalError "boom") :=
  (c8_eval_failure_aborts g8 va vb).1 "boom" rfl

/-- C4: in one relaxation step on an edge whose target is unvisited and
which satisfies the constraints, the edge is appended to the target's
predecessor list exactly when the candidate distance (uint64 sum of the
selected vertex's distance and the edge cost) is less than or equal to the
target's recorded distance; a strictly smaller candidate also rewrites the
target's distance, and the previously recorded predecessor edges are kept,
never cleared. -/
theorem c4_relaxation_step (evalOpt : Option Pred) (unvisited : List Vertex)
    (closest : Vertex) (distSet : List (Vertex × Nat))
    (prevSet : List (Vertex × List Edge)) (e : Edge)
    (hunvis : e.To ∈ unvisited)
    (hsat : edgeSatisfiesConstranints evalOpt e = .ok true) :
    ∃ d2 p2, relaxOne evalOpt unvisited closest distSet prevSet e = .ok (d2, p2) ∧
      (lookupD p2 e.To [] = lookupD prevSet e.To [] ++ [e]
        ↔ addU64 (lookupD distSet closest 0) e.Cost ≤ lookupD distSet e.To 0) ∧
      (addU64 (lookupD distSet closest 0) e.Cost < lookupD distSet e.To 0 →
        lookupD d2 e.To 0 = addU64 (lookupD distSet closest 0) e.Cost ∧
        lookupD p2 e.To [] = lookupD prevSet e.To [] ++ [e]) ∧
      (¬ addU64 (lookupD distSet closest 0) e.Cost ≤ lookupD distSet e.To 0 →
        d2 = distSet ∧ p2 = prevSet) := by
  by_cases hle : addU64 (lookupD distSet closest 0) e.Cost ≤ lookupD distSet e.To 0
  · refine ⟨insertA distSet e.To (addU64 (lookupD distSet closest 0) e.Cost),
      insertA prevSet e.To (lookupD prevSet e.To [] ++ [e]), ?_, ?_, ?_, ?_⟩
    · simp [relaxOne, hunvis, hsat, hle]
    · simp [lookupD_insertA_self, hle]
    · intro _
      exact ⟨lookupD_insertA_self _ _ _ _, lookupD_insertA_self _ _ _ _⟩
    · intro hcontra
      exact absurd hle hcontra
  · refine ⟨distSet, prevSet, ?_, ?_, ?_, ?_⟩
    · simp [relaxOne, hunvis, hsat, hle]
    · constructor
      · intro habs
        have : (lookupD prevSet e.To []).length = (lookupD prevSet e.To []).length + 1 := by
          conv_lhs => rw [habs]
          simp
        omega
      · intro h
        exact absurd h hle
    · intro hlt
      exact absurd (Nat.le_of_lt hlt) hle
    · intro _
      exact ⟨rfl, rfl⟩

/-- Witness for C4 at a concrete relaxation state. -/
theorem c4_witness :
    ∃ d2 p2,
      relaxOne none [vb] va [(va, 0), (vb, INF)] [(va, []), (vb, [])] eAB
        = .ok (d2, p2) ∧
      (lookupD p2 eAB.To [] = lookupD [(va, []), (vb, [])] eAB.To [] ++ [eAB]
        ↔ addU64 (lookupD [(va, 0), (vb, INF)] va 0) eAB.Cost
            ≤ lookupD [(va, 0), (vb, INF)] eAB.To 0) ∧
      (addU64 (lookupD [(va, 0), (vb, INF)] va 0) eAB.Cost
          < lookupD [(va, 0), (vb, INF)] eAB.To 0 →
        lookupD d2 eAB.To 0 = addU64 (lookupD [(va, 0), (vb, INF)] va 0) eAB.Cost ∧
        lookupD p2 eAB.To [] = lookupD [(va, []), (vb, [])] eAB.To [] ++ [eAB]) ∧
      (¬ addU64 (lookupD [(va, 0), (vb, INF)] va 0) eAB.Cost
          ≤ lookupD [(va, 0), (vb, INF)] eAB.To 0 →
        d2 = [(va, 0), (vb, INF)] ∧ p2 = [(va, []), (vb, [])]) :=
  c4_relaxation_step none [vb] va [(va, 0), (vb, INF)] [(va, []), (vb, [])] eAB
    (by decide) rfl

theorem lookupA_append {κ β : Type} [DecidableEq κ] (l1 l2 : List (κ × β)) (k : κ) :
    lookupA (l1 ++ l2) k
      = match lookupA l1 k with
        | some v => some v
        | none => lookupA l2 k := by
  induction l1 with
  | nil => simp [lookupA]
  | cons p rest ih =>
    obtain ⟨k', v⟩ := p
    by_cases h : k = k'
    · simp [lookupA, h]
    · simp [lookupA, h, ih]

theorem lookupD_AddNode (g : Graph) (v w : Vertex) :
    lookupD (g.AddNode v).VertexSet w ([] : List Edge) = lookupD g.VertexSet w [] := by
  unfold Graph.AddNode
  by_cases hc : containsKey g.VertexSet v
  · simp [hc]
  · simp only [hc, Bool.false_eq_true, if_false]
    simp only [lookupD, lookupA_append]
    cases h : lookupA g.VertexSet w with
    | some l => simp
    | none =>
      simp only [lookupA]
      split <;> simp

theorem containsKey_AddNode_self (g : Graph) (v : Vertex) :
    containsKey (g.AddNode v).VertexSet v = true := by
  unfold Graph.AddNode
  by_cases hc : containsKey g.VertexSet v
  · simp [hc]
  · simp only [hc, Bool.false_eq_true, if_false]
    have hnone : lookupA g.VertexSet v = none := by
      cases h : lookupA g.VertexSet v with
      | none => rfl
      | some l => exact absurd (by simp [containsKey, h]) hc
    simp [containsKey, lookupA_append, hnone, lookupA]

theorem containsKey_AddNode_mono (g : Graph) (v w : Vertex)
    (h : containsKey g.VertexSet w = true) :
    containsKey (g.AddNode v).VertexSet w = true := by
  unfold Graph.AddNode
  by_cases hc : containsKey g.VertexSet v
  · simpa [hc] using h
  · simp only [hc, Bool.false_eq_true, if_false]
    obtain ⟨l, hl⟩ := Option.isSome_iff_exists.1 h
    simp [containsKey, lookupA_append, hl]

theorem lookupD_addEdge_From (g : Graph) (e : Edge) :
    lookupD (g.addEdge e).VertexSet e.From []
      = lookupD g.VertexSet e.From [] ++ [e] := by
  unfold Graph.addEdge
  rw [lookupD_insertA_self, lookupD_AddNode, lookupD_AddNode]

theorem containsKey_addEdge_From (g : Graph) (e : Edge) :
    containsKey (g.addEdge e).VertexSet e.From = true := by
  unfold Graph.addEdge
  simp [containsKey_insertA]

theorem containsKey_addEdge_To (g : Graph) (e : Edge) :
    containsKey (g.addEdge e).VertexSet e.To = true := by
  unfold Graph.addEdge
  rw [containsKey_insertA]
  simp [containsKey_AddNode_self]

theorem buildTagMap_error (tags : List Tag) (acc : TagMap) (err : GoError)
    (h : buildTagMap tags acc = .error err) :
    ∃ k, err = .duplicateTagKey k ∧ k ∈ tags.map Tag.Key := by
  induction tags generalizing acc with
  | nil => simp [buildTagMap] at h
  | cons t rest ih =>
    by_cases hc : containsKey acc t.Key
    · refine ⟨t.Key, ?_, by simp⟩
      simp [buildTagMap, hc] at h
      exact h.symm
    · simp only [buildTagMap, hc, Bool.false_eq_true, if_false] at h
      obtain ⟨k, hk, hmem⟩ := ih _ h
      exact ⟨k, hk, by simp [hmem]⟩

theorem buildTagMap_ok_iff (tags : List Tag) (acc : TagMap) :
    (∃ tm, buildTagMap tags acc = .ok tm)
      ↔ ((tags.map Tag.Key).Nodup ∧ ∀ t ∈ tags, containsKey acc t.Key = false) := by
  induction tags generalizing acc with
  | nil => simp [buildTagMap]
  | cons t rest ih =>
    by_cases hc : containsKey acc t.Key
    · simp only [buildTagMap, hc, if_true]
      constructor
      · rintro ⟨tm, htm⟩
        cases htm
      · rintro ⟨-, hall⟩
        have := hall t (by simp)
        rw [hc] at this
        cases this
    · simp only [buildTagMap, hc, Bool.false_eq_true, if_false]
      rw [ih]
      constructor
      · rintro ⟨hnd, hall⟩
        have hkey : ∀ t' ∈ rest, t'.Key ≠ t.Key ∧ containsKey acc t'.Key = false := by
          intro t' ht'
          have := hall t' ht'
          rw [containsKey_insertA] at this
          simp only [Bool.or_eq_false_iff, decide_eq_false_iff_not] at this
          exact ⟨this.2, this.1⟩
        refine ⟨?_, ?_⟩
        · simp only [List.map_cons, List.nodup_cons]
          refine ⟨?_, hnd⟩
          intro hmem
          obtain ⟨t', ht', hkeq⟩ := List.mem_map.1 hmem
          exact (hkey t' ht').1 hkeq
        · intro t' ht'
          rcases List.mem_cons.1 ht' with h | h
          · subst h
            simpa using hc
          · exact (hkey t' h).2
      · rintro ⟨hnd, hall⟩
        simp only [List.map_cons, List.nodup_cons] at hnd
        refine ⟨hnd.2, ?_⟩
        intro t' ht'
        rw [containsKey_insertA]
        have h1 : containsKey acc t'.Key = false := hall t' (by simp [ht'])
        have h2 : t'.Key ≠ t.Key := by
          intro heq
          exact hnd.1 (heq ▸ List.mem_map_of_mem Tag.Key ht')
        simp [h1, h2]

/-- C5: AddEdge with two tags sharing a key fails with the DuplicateTagKey
error naming an offending key and leaves the graph exactly as it was; with
pairwise-distinct keys it succeeds and appends the edge to the source
vertex's outgoing list after ensuring both endpoints are present. -/
theorem c5_addEdge_validation (g : Graph) (src dst : Vertex) (cost : Nat)
    (tags : List Tag) :
    (¬ (tags.map Tag.Key).Nodup →
      ∃ k, k ∈ tags.map Tag.Key ∧
        g.AddEdge src dst cost tags = (.error (.duplicateTagKey k), g)) ∧
    ((tags.map Tag.Key).Nodup →
      ∃ tm, buildTagMap tags [] = .ok tm ∧
        g.AddEdge src dst cost tags = (.ok (), g.addEdge ⟨src, dst, cost, tm⟩) ∧
        lookupD (g.addEdge ⟨src, dst, cost, tm⟩).VertexSet src []
          = lookupD g.VertexSet src [] ++ [(⟨src, dst, cost, tm⟩ : Edge)] ∧
        containsKey (g.addEdge ⟨src, dst, cost, tm⟩).VertexSet src = true ∧
        containsKey (g.addEdge ⟨src, dst, cost, tm⟩).VertexSet dst = true) := by
  constructor
  · intro hnd
    have hno : ¬ ∃ tm, buildTagMap tags [] = .ok tm := by
      rw [buildTagMap_ok_iff]
      intro h
      exact hnd h.1
    cases hb : buildTagMap tags [] with
    | ok tm => exact absurd ⟨tm, hb⟩ hno
    | error err =>
      obtain ⟨k, hk, hmem⟩ := buildTagMap_error tags [] err hb
      refine ⟨k, hmem, ?_⟩
      simp [Graph.AddEdge, hb, hk]
  · intro hnd
    obtain ⟨tm, htm⟩ := (buildTagMap_ok_iff tags []).2
      ⟨hnd, fun t _ => by simp [containsKey, lookupA]⟩
    refine ⟨tm, htm, ?_, ?_, ?_, ?_⟩
    · simp [Graph.AddEdge, htm]
    · exact lookupD_addEdge_From g ⟨src, dst, cost, tm⟩
    · exact containsKey_addEdge_From g ⟨src, dst, cost, tm⟩
    · exact containsKey_addEdge_To g ⟨src, dst, cost, tm⟩

/-- Witness for C5 on concrete tag lists: a duplicated key is rejected with
the graph unchanged, distinct keys succeed. -/
theorem c5_witness :
    (∃ k, k ∈ tagsDup.map Tag.Key ∧
      g1.AddEdge va vb 1 tagsDup = (.error (.duplicateTagKey k), g1)) ∧
    (∃ tm, buildTagMap tagsOk [] = .ok tm ∧
      g1.AddEdge va vb 1 tagsOk = (.ok (), g1.addEdge ⟨va, vb, 1, tm⟩) ∧
      lookupD (g1.addEdge ⟨va, vb, 1, tm⟩).VertexSet va []
        = lookupD g1.VertexSet va [] ++ [(⟨va, vb, 1, tm⟩ : Edge)] ∧
      containsKey (g1.addEdge ⟨va, vb, 1, tm⟩).VertexSet va = true ∧
      containsKey (g1.addEdge ⟨va, vb, 1, tm⟩).VertexSet vb = true) :=
  ⟨(c5_addEdge_validation g1 va vb 1 tagsDup).1 (by decide),
   (c5_addEdge_validation g1 va vb 1 tagsOk).2 (by decide)⟩

theorem foldl_smallest_all_inf (distSet : List (Vertex × Nat)) :
    ∀ l : List Vertex, (∀ v ∈ l, lookupD distSet v 0 = INF) →
      l.foldl
        (fun acc v =>
          let d := lookupD distSet v 0
          if d < acc.1 then (d, v) else acc)
        (INF, zeroVertex) = (INF, zeroVertex) := by
  intro l
  induction l with
  | nil =>
    intro _
    rfl
  | cons v rest ih =>
    intro hinf
    have hv : lookupD distSet v 0 = INF := hinf v (by simp)
    have hrest : ∀ w ∈ rest, lookupD distSet w 0 = INF :=
      fun w hw => hinf w (by simp [hw])
    simp only [List.foldl_cons]
    rw [hv, if_neg (Nat.lt_irrefl INF)]
    exact ih hrest

theorem getSmallestDistanceVertex_all_inf (unvisited : List Vertex)
    (distSet : List (Vertex × Nat))
    (hinf : ∀ v ∈ unvisited, lookupD distSet v 0 = INF) :
    getSmallestDistanceVertex unvisited distSet = zeroVertex := by
  unfold getSmallestDistanceVertex
  rw [foldl_smallest_all_inf distSet unvisited hinf]

/-- C3, counterexample: on the concrete graph g3, whose vertex with the
empty ID is unreachable from the start vertex, the loop state right after
initialization has a non-empty unvisited set whose members all carry
infinite distance; yet the loop does not stop there: it selects the zero-ID
vertex (the zero value returned by the minimum search), relaxes its edge
with a wrapped uint64 distance (INF + 5 = 4), and ends with a changed
distance and predecessor state — refuting the claim for graphs that contain
a vertex with the empty ID. -/
theorem c3_counterexample :
    initUnvisited g3 = [zeroVertex, vb] ∧
    lookupD (initDist g3 va) zeroVertex 0 = INF ∧
    lookupD (initDist g3 va) vb 0 = INF ∧
    spfRun g3 va
      = .ok ([(zeroVertex, INF), (vb, 4), (va, 0)], [(zeroVertex, []), (vb, [zb])]) ∧
    spfRun g3 va ≠ .ok (initDist g3 va, initPrev g3) := by
  have h4 : spfRun g3 va
      = .ok ([(zeroVertex, INF), (vb, 4), (va, 0)], [(zeroVertex, []), (vb, [zb])]) := by
    rfl
  refine ⟨rfl, rfl, rfl, h4, ?_⟩
  intro h
  have h5 := h4.symm.trans h
  injection h5 with h6
  exact absurd h6 (by decide)

/-- C3, amended: whenever every remaining unvisited vertex has infinite
recorded distance AND the zero-value vertex (empty ID) is not among the
remaining unvisited vertices, the relaxation loop terminates immediately,
leaving the distance and predecessor maps untouched.  (The original claim's
clause that this holds whatever vertex IDs the graph contains is dropped:
an unvisited vertex with the empty ID coincides with the zero Vertex that
the minimum search returns when nothing is selectable, so it is deleted and
relaxed instead of breaking the loop.) -/
theorem c3_loop_break (g : Graph) (fuel : Nat) (unvisitedSet : List Vertex)
    (distSet : List (Vertex × Nat)) (prevSet : List (Vertex × List Edge))
    (hinf : ∀ v ∈ unvisitedSet, lookupD distSet v 0 = INF)
    (hz : zeroVertex ∉ unvisitedSet) :
    spfLoop g fuel unvisitedSet distSet prevSet = .ok (distSet, prevSet) := by
  cases fuel with
  | zero => rfl
  | succ n =>
    by_cases he : unvisitedSet.isEmpty
    · simp [spfLoop, he]
    · have hsm : getSmallestDistanceVertex unvisitedSet distSet = zeroVertex :=
        getSmallestDistanceVertex_all_inf unvisitedSet distSet hinf
      have her : unvisitedSet.erase zeroVertex = unvisitedSet :=
        List.erase_of_not_mem hz
      simp [spfLoop, he, hsm, her]

/-- Witness for the amended C3 at a concrete all-infinite state without the
zero-ID vertex. -/
theorem c3_witness :
    spfLoop g1 1 [vb] [(vb, INF)] [] = .ok ([(vb, INF)], []) :=
  c3_loop_break g1 1 [vb] [(vb, INF)] [] (by decide) (by decide)

theorem lookupA_mem {κ β : Type} [DecidableEq κ] (m : List (κ × β)) (k : κ) (v : β)
    (h : lookupA m k = some v) : (k, v) ∈ m := by
  induction m with
  | nil => cases h
  | cons p rest ih =>
    obtain ⟨k', w⟩ := p
    by_cases hk : k = k'
    · subst hk
      rw [lookupA, if_pos rfl] at h
      injection h with hw
      subst hw
      exact List.mem_cons_self _ _
    · rw [lookupA, if_neg hk] at h
      exact List.mem_cons_of_mem _ (ih h)

theorem containsKey_insertA_of_mem {κ β : Type} [DecidableEq κ] (m : List (κ × β))
    (k : κ) (v : β) (h : containsKey m k = true) (w : κ) :
    containsKey (insertA m k v) w = containsKey m w := by
  rw [containsKey_insertA]
  by_cases hw : w = k
  · subst hw
    simp [h]
  · simp [hw]

theorem lookupA_map_const {κ β γ : Type} [DecidableEq κ] (m : List (κ × β)) (c : γ)
    (k : κ) :
    lookupA (m.map (fun p => (p.1, c))) k = (lookupA m k).map (fun _ => c) := by
  induction m with
  | nil => rfl
  | cons p rest ih =>
    obtain ⟨k', v⟩ := p
    by_cases h : k = k'
    · simp [lookupA, h]
    · simp [lookupA, h, ih]

theorem containsKey_initPrev (g : Graph) (w : Vertex) :
    containsKey (initPrev g) w = containsKey g.VertexSet w := by
  rw [initPrev, containsKey, containsKey, lookupA_map_const]
  cases lookupA g.VertexSet w <;> rfl

theorem relaxOne_ok_prev (evalOpt : Option Pred) (unvisited : List Vertex)
    (closest : Vertex) (distSet : List (Vertex × Nat))
    (prevSet : List (Vertex × List Edge)) (e : Edge)
    (d1 : List (Vertex × Nat)) (p1 : List (Vertex × List Edge))
    (h : relaxOne evalOpt unvisited closest distSet prevSet e = .ok (d1, p1)) :
    p1 = prevSet ∨ ∃ l, p1 = insertA prevSet e.To l := by
  by_cases hmem : e.To ∈ unvisited
  · cases hs : edgeSatisfiesConstranints evalOpt e with
    | error err =>
      have hval : relaxOne evalOpt unvisited closest distSet prevSet e = .error err := by
        simp [relaxOne, hmem, hs]
      rw [hval] at h
      cases h
    | ok sat =>
      cases sat with
      | false =>
        have hval : relaxOne evalOpt unvisited closest distSet prevSet e
            = .ok (distSet, prevSet) := by
          simp [relaxOne, hmem, hs]
        rw [hval] at h
        injection h with h2
        rw [Prod.mk.injEq] at h2
        exact Or.inl h2.2.symm
      | true =>
        by_cases hle : addU64 (lookupD distSet closest 0) e.Cost ≤ lookupD distSet e.To 0
        · have hval : relaxOne evalOpt unvisited closest distSet prevSet e
              = .ok (insertA distSet e.To (addU64 (lookupD distSet closest 0) e.Cost),
                     insertA prevSet e.To (lookupD prevSet e.To [] ++ [e])) := by
            simp [relaxOne, hmem, hs, hle]
          rw [hval] at h
          injection h with h2
          rw [Prod.mk.injEq] at h2
          exact Or.inr ⟨_, h2.2.symm⟩
        · have hval : relaxOne evalOpt unvisited closest distSet prevSet e
              = .ok (distSet, prevSet) := by
            simp [relaxOne, hmem, hs, hle]
          rw [hval] at h
          injection h with h2
          rw [Prod.mk.injEq] at h2
          exact Or.inl h2.2.symm
  · have hval : relaxOne evalOpt unvisited closest distSet prevSet e
        = .ok (distSet, prevSet) := by
      simp [relaxOne, hmem]
    rw [hval] at h
    injection h with h2
    rw [Prod.mk.injEq] at h2
    exact Or.inl h2.2.symm

theorem relaxEdges_ok_keys (g : Graph) (evalOpt : Option Pred)
    (unvisited : List Vertex) (closest : Vertex) :
    ∀ (edges : List Edge) (distSet : List (Vertex × Nat))
      (prevSet : List (Vertex × List Edge))
      (d2 : List (Vertex × Nat)) (p2 : List (Vertex × List Edge)),
      (∀ e ∈ edges, containsKey g.VertexSet e.To = true) →
      (∀ w, containsKey prevSet w = containsKey g.VertexSet w) →
      relaxEdges evalOpt unvisited closest edges distSet prevSet = .ok (d2, p2) →
      ∀ w, containsKey p2 w = containsKey g.VertexSet w := by
  intro edges
  induction edges with
  | nil =>
    intro distSet prevSet d2 p2 _ hinv h w
    simp only [relaxEdges] at h
    injection h with hpair
    rw [Prod.mk.injEq] at hpair
    rw [← hpair.2]
    exact hinv w
  | cons e rest ih =>
    intro distSet prevSet d2 p2 hedges hinv h w
    cases hr : relaxOne evalOpt unvisited closest distSet prevSet e with
    | error err => simp [relaxEdges, hr] at h
    | ok dp =>
      obtain ⟨dm, pm⟩ := dp
      simp only [relaxEdges, hr] at h
      have hinv2 : ∀ w2, containsKey pm w2 = containsKey g.VertexSet w2 := by
        rcases relaxOne_ok_prev evalOpt unvisited closest distSet prevSet e dm pm hr with
          hcase | ⟨l, hcase⟩
        · intro w2
          rw [hcase]
          exact hinv w2
        · intro w2
          rw [hcase,
            containsKey_insertA_of_mem prevSet e.To l
              (by rw [hinv]; exact hedges e (by simp))]
          exact hinv w2
      exact ih dm pm d2 p2 (fun e2 he2 => hedges e2 (by simp [he2])) hinv2 h w

theorem relaxOne_none_ok (unvisited : List Vertex) (closest : Vertex)
    (distSet : List (Vertex × Nat)) (prevSet : List (Vertex × List Edge)) (e : Edge) :
    ∃ dp, relaxOne none unvisited closest distSet prevSet e = .ok dp := by
  by_cases hmem : e.To ∈ unvisited
  · by_cases hle : addU64 (lookupD distSet closest 0) e.Cost ≤ lookupD distSet e.To 0
    · exact ⟨(insertA distSet e.To (addU64 (lookupD distSet closest 0) e.Cost),
        insertA prevSet e.To (lookupD prevSet e.To [] ++ [e])),
        by simp [relaxOne, hmem, edgeSatisfiesConstranints, hle]⟩
    · exact ⟨(distSet, prevSet),
        by simp [relaxOne, hmem, edgeSatisfiesConstranints, hle]⟩
  · exact ⟨(distSet, prevSet), by simp [relaxOne, hmem]⟩

theorem relaxEdges_none_ok (unvisited : List Vertex) (closest : Vertex) :
    ∀ (edges : List Edge) (distSet : List (Vertex × Nat))
      (prevSet : List (Vertex × List Edge)),
      ∃ d2 p2, relaxEdges none unvisited closest edges distSet prevSet = .ok (d2, p2) := by
  intro edges
  induction edges with
  | nil =>
    intro d p
    exact ⟨d, p, rfl⟩
  | cons e rest ih =>
    intro d p
    obtain ⟨⟨dm, pm⟩, hr⟩ := relaxOne_none_ok unvisited closest d p e
    obtain ⟨d2, p2, h2⟩ := ih dm pm
    exact ⟨d2, p2, by simp [relaxEdges, hr, h2]⟩

theorem spfLoop_ok_keys (g : Graph) (hev : g.eval = none) (hclosed : edgeClosed g) :
    ∀ (fuel : Nat) (unvisitedSet : List Vertex) (distSet : List (Vertex × Nat))
      (prevSet : List (Vertex × List Edge)),
      (∀ w, containsKey prevSet w = containsKey g.VertexSet w) →
      ∃ d2 p2, spfLoop g fuel unvisitedSet distSet prevSet = .ok (d2, p2) ∧
        ∀ w, containsKey p2 w = containsKey g.VertexSet w := by
  intro fuel
  induction fuel with
  | zero =>
    intro u d p hinv
    exact ⟨d, p, rfl, hinv⟩
  | succ n ih =>
    intro u d p hinv
    by_cases he : u.isEmpty
    · exact ⟨d, p, by simp [spfLoop, he], hinv⟩
    · by_cases hlen :
        (u.erase (getSmallestDistanceVertex u d)).length = u.length
      · exact ⟨d, p, by simp [spfLoop, he, hlen], hinv⟩
      · have hedges : ∀ e ∈ lookupD g.VertexSet (getSmallestDistanceVertex u d) [],
            containsKey g.VertexSet e.To = true := by
          intro e he2
          cases hl : lookupA g.VertexSet (getSmallestDistanceVertex u d) with
          | none => simp [lookupD, hl] at he2
          | some l =>
            rw [lookupD, hl] at he2
            exact hclosed _ (lookupA_mem _ _ _ hl) e he2
        obtain ⟨dm, pm, hrel⟩ :=
          relaxEdges_none_ok (u.erase (getSmallestDistanceVertex u d))
            (getSmallestDistanceVertex u d)
            (lookupD g.VertexSet (getSmallestDistanceVertex u d) [])
            d p
        have hrel2 : relaxEdges g.eval (u.erase (getSmallestDistanceVertex u d))
            (getSmallestDistanceVertex u d)
            (lookupD g.VertexSet (getSmallestDistanceVertex u d) [])
            d p = .ok (dm, pm) := by
          rw [hev]
          exact hrel
        have hinv2 : ∀ w, containsKey pm w = containsKey g.VertexSet w :=
          relaxEdges_ok_keys g g.eval (u.erase (getSmallestDistanceVertex u d))
            (getSmallestDistanceVertex u d)
            (lookupD g.VertexSet (getSmallestDistanceVertex u d) [])
            d p dm pm hedges hinv hrel2
        obtain ⟨d2, p2, hloop, hkeys⟩ := ih (u.erase (getSmallestDistanceVertex u d)) dm pm hinv2
        exact ⟨d2, p2, by simp [spfLoop, he, hlen, hrel2, hloop], hkeys⟩

/-- C2, counterexample: in graph g2c the vertex vc is isolated — after the
relaxation its predecessor list is empty — and vc differs from the source
va; the claim then demands an empty result Graph, but SPF returns the graph
built from every recorded predecessor edge, because the code tests key
presence in the predecessor map (true for every vertex of the graph), not
non-emptiness of the destination's predecessor list. -/
theorem c2_counterexample :
    spfRun g2c va
      = .ok ([(va, 0), (vb, 1), (vc, INF)], [(va, []), (vb, [eAB]), (vc, [])]) ∧
    lookupD ([(va, []), (vb, [eAB]), (vc, [])] : List (Vertex × List Edge)) vc [] = [] ∧
    vc ≠ va ∧
    SPF (some g2c) va vc = .ok ⟨[(va, [eAB]), (vb, [])], none⟩ ∧
    SPF (some g2c) va vc ≠ .ok emptyGraph := by
  have h4 : SPF (some g2c) va vc = .ok ⟨[(va, [eAB]), (vb, [])], none⟩ := by rfl
  refine ⟨by rfl, by decide, by decide, h4, ?_⟩
  intro h
  have h5 := h4.symm.trans h
  injection h5 with h6
  have h7 := congrArg Graph.VertexSet h6
  simp [emptyGraph] at h7

/-- C2, amended: for a graph whose edges all point at vertices of the graph
(as AddEdge guarantees) and with no predicate installed, the relaxation
succeeds, the final predecessor map has exactly the graph's vertices as
keys, and the result of SPF is decided by key PRESENCE of the destination:
an empty Graph exactly when the destination is not a vertex of the graph
and differs from the source; otherwise the graph built from every vertex's
predecessor-edge set — even when the destination's own predecessor list is
empty. -/
theorem c2_amended (g : Graph) (src dst : Vertex)
    (hclosed : edgeClosed g) (hev : g.eval = none) :
    ∃ distSet prevSet, spfRun g src = .ok (distSet, prevSet) ∧
      (containsKey g.VertexSet dst = false ∧ dst ≠ src →
        SPF (some g) src dst = .ok emptyGraph) ∧
      ((containsKey g.VertexSet dst = true ∨ dst = src) →
        SPF (some g) src dst = .ok (buildGraph prevSet)) := by
  obtain ⟨d2, p2, hrun, hkeys⟩ :=
    spfLoop_ok_keys g hev hclosed (initUnvisited g).length (initUnvisited g)
      (initDist g src) (initPrev g) (containsKey_initPrev g)
  have hrun2 : spfRun g src = .ok (d2, p2) := hrun
  refine ⟨d2, p2, hrun2, ?_, ?_⟩
  · rintro ⟨hnk, hne⟩
    have hcond : ¬ (containsKey p2 dst = true ∨ dst = src) := by
      rintro (hc | hc)
      · rw [hkeys, hnk] at hc
        cases hc
      · exact hne hc
    simp only [SPF, SPFcore, hrun2]
    rw [if_neg hcond]
  · intro hor
    have hcond : containsKey p2 dst = true ∨ dst = src := by
      rcases hor with hc | hc
      · exact Or.inl (by rw [hkeys]; exact hc)
      · exact Or.inr hc
    simp only [SPF, SPFcore, hrun2]
    rw [if_pos hcond]

/-- Witness for the amended C2 on the diamond graph (destination reachable
and a vertex of the graph). -/
theorem c2_witness :
    ∃ distSet prevSet, spfRun gDiamond va = .ok (distSet, prevSet) ∧
      (containsKey gDiamond.VertexSet vd = false ∧ vd ≠ va →
        SPF (some gDiamond) va vd = .ok emptyGraph) ∧
      ((containsKey gDiamond.VertexSet vd = true ∨ vd = va) →
        SPF (some gDiamond) va vd = .ok (buildGraph prevSet)) :=
  c2_amended gDiamond va vd (by unfold edgeClosed; decide) rfl

/-- C1, evaluated at the failing input: in the graph with edges a to b,
b to c and b to d, the DFS of Paths(a, d) returns the single edge sequence
[b to c, b to d], which neither starts at the requested source a nor links
its consecutive edges — because the backtracking step drops the FIRST
element of the shared path (the source writes path = path[1:]) instead of
its tail, corrupting the path prefix after the dead-end descent into c. -/
theorem c1_paths_disconnected :
    Paths (some g1) va vd = [[eBC, eBD]] ∧
    eBC.From ≠ va ∧
    eBC.To ≠ eBD.From := by decide

theorem dfsStep_inl (g : Graph) (dst : Vertex) (fuel : Nat) (v : Vertex)
    (eo : Option Edge) (st : DfsSt) :
    dfsStep g dst (fuel + 1) (.inl (v, eo)) st
      = match (if v = dst
          then some { dfsEnter st v eo with
                      paths := (dfsEnter st v eo).paths ++ [(dfsEnter st v eo).path] }
          else dfsStep g dst fuel (.inr (adjOf g v)) (dfsEnter st v eo)) with
        | none => none
        | some st2 => some (dfsLeave st2 v) := rfl

theorem dfsStep_inr_cons (g : Graph) (dst : Vertex) (fuel : Nat) (e : Edge)
    (rest : List Edge) (st : DfsSt) :
    dfsStep g dst (fuel + 1) (.inr (e :: rest)) st
      = if e.To ∈ st.visited then dfsStep g dst fuel (.inr rest) st
        else
          match dfsStep g dst fuel (.inl (e.To, some e)) st with
          | none => none
          | some st2 => dfsStep g dst fuel (.inr rest) st2 := rfl

theorem filter_ne_self (W : List Vertex) (v : Vertex) (h : v ∉ W) :
    W.filter (fun x => decide (x ≠ v)) = W := by
  apply List.filter_eq_self.mpr
  intro a ha
  rw [decide_eq_true_eq]
  intro heq
  exact h (heq ▸ ha)

theorem removeV_insertV (W : List Vertex) (v : Vertex) (h : v ∉ W) :
    removeV (insertV W v) v = W := by
  rw [insertV, if_neg h, removeV, List.filter_cons]
  have hd : decide (v ≠ v) = false := by simp
  rw [hd]
  simp only [Bool.false_eq_true, if_false]
  exact filter_ne_self W v h

theorem length_filter_impl {α : Type} (l : List α) (p q : α → Bool)
    (h : ∀ a, p a = true → q a = true) :
    (l.filter p).length ≤ (l.filter q).length := by
  induction l with
  | nil => simp
  | cons a rest ih =>
    simp only [List.filter_cons]
    by_cases hp : p a = true
    · rw [if_pos hp, if_pos (h a hp)]
      simpa using ih
    · rw [if_neg hp]
      by_cases hq : q a = true
      · rw [if_pos hq]
        simp only [List.length_cons]
        exact Nat.le_succ_of_le ih
      · rw [if_neg hq]
        exact ih

theorem length_filter_lt {α : Type} (l : List α) (p q : α → Bool)
    (h : ∀ a, p a = true → q a = true) (v : α) (hv : v ∈ l)
    (hpv : p v = false) (hqv : q v = true) :
    (l.filter p).length < (l.filter q).length := by
  induction l with
  | nil => cases hv
  | cons a rest ih =>
    simp only [List.filter_cons]
    by_cases hav : a = v
    · subst hav
      rw [if_neg (by rw [hpv]; simp), if_pos hqv]
      simp only [List.length_cons]
      exact Nat.lt_succ_of_le (length_filter_impl rest p q h)
    · have hv2 : v ∈ rest := by
        rcases List.mem_cons.1 hv with h2 | h2
        · exact absurd h2.symm hav
        · exact h2
      by_cases hp : p a = true
      · rw [if_pos hp, if_pos (h a hp)]
        simp only [List.length_cons]
        exact Nat.succ_lt_succ (ih hv2)
      · rw [if_neg hp]
        by_cases hq : q a = true
        · rw [if_pos hq]
          simp only [List.length_cons]
          exact Nat.lt_succ_of_lt (ih hv2)
        · rw [if_neg hq]
          exact ih hv2

theorem cnt_insertV_le (U W : List Vertex) (v : Vertex) :
    cntUnvisited U (insertV W v) ≤ cntUnvisited U W := by
  apply length_filter_impl
  intro a ha
  rw [decide_eq_true_eq] at ha ⊢
  intro hmem
  apply ha
  rw [insertV]
  split
  · exact hmem
  · exact List.mem_cons_of_mem _ hmem

theorem cnt_insertV_lt (U W : List Vertex) (v : Vertex) (hvU : v ∈ U) (hvW : v ∉ W) :
    cntUnvisited U (insertV W v) + 1 ≤ cntUnvisited U W := by
  refine length_filter_lt U _ _ ?_ v hvU ?_ ?_
  · intro a ha
    rw [decide_eq_true_eq] at ha ⊢
    intro hmem
    apply ha
    rw [insertV]
    split
    · exact hmem
    · exact List.mem_cons_of_mem _ hmem
  · rw [decide_eq_false_iff_not]
    intro hno
    apply hno
    rw [insertV, if_neg hvW]
    exact List.mem_cons_self _ _
  · rw [decide_eq_true_eq]
    exact hvW

theorem cnt_le_length (U W : List Vertex) : cntUnvisited U W ≤ U.length :=
  List.length_filter_le _ _

theorem mem_targets_aux (m : List (Vertex × List Edge)) (p : Vertex × List Edge)
    (hp : p ∈ m) (e : Edge) (he : e ∈ p.2) :
    e.To ∈ m.foldr (fun q acc => q.2.map Edge.To ++ acc) [] := by
  induction m with
  | nil => cases hp
  | cons q rest ih =>
    simp only [List.foldr_cons]
    rcases List.mem_cons.1 hp with h2 | h2
    · subst h2
      exact List.mem_append_left _ (List.mem_map_of_mem _ he)
    · exact List.mem_append_right _ (ih h2)

theorem To_mem_targetsOf (g : Graph) (v : Vertex) (e : Edge) (he : e ∈ adjOf g v) :
    e.To ∈ targetsOf g := by
  cases hl : lookupA g.VertexSet v with
  | none =>
    rw [adjOf, lookupD, hl] at he
    cases he
  | some l =>
    rw [adjOf, lookupD, hl] at he
    exact mem_targets_aux g.VertexSet (v, l) (lookupA_mem _ _ _ hl) e he

theorem maxAdj_aux (m : List (Vertex × List Edge)) (p : Vertex × List Edge)
    (hp : p ∈ m) :
    p.2.length ≤ m.foldr (fun q acc => max q.2.length acc) 0 := by
  induction m with
  | nil => cases hp
  | cons q rest ih =>
    simp only [List.foldr_cons]
    rcases List.mem_cons.1 hp with h2 | h2
    · subst h2
      exact Nat.le_max_left _ _
    · exact Nat.le_trans (ih h2) (Nat.le_max_right _ _)

theorem adjOf_length_le (g : Graph) (v : Vertex) :
    (adjOf g v).length ≤ maxAdj g := by
  cases hl : lookupA g.VertexSet v with
  | none =>
    rw [adjOf, lookupD, hl]
    simp
  | some l =>
    rw [adjOf, lookupD, hl]
    exact maxAdj_aux g.VertexSet (v, l) (lookupA_mem _ _ _ hl)

theorem dfs_enough_fuel (g : Graph) (dst : Vertex) (U : List Vertex) (M : Nat)
    (hU : ∀ w ∈ targetsOf g, w ∈ U)
    (hM : ∀ w : Vertex, (adjOf g w).length ≤ M) :
    ∀ fuel : Nat,
      (∀ (v : Vertex) (eo : Option Edge) (st : DfsSt),
        v ∈ U → v ∉ st.visited →
        cntUnvisited U (insertV st.visited v) * (M + 2) + M + 2 ≤ fuel →
        ∃ st2, dfsStep g dst fuel (.inl (v, eo)) st = some st2 ∧
          st2.visited = st.visited) ∧
      (∀ (edges : List Edge) (st : DfsSt),
        (∀ e ∈ edges, e.To ∈ U) →
        cntUnvisited U st.visited * (M + 2) + edges.length + 1 ≤ fuel →
        ∃ st2, dfsStep g dst fuel (.inr edges) st = some st2 ∧
          st2.visited = st.visited) := by
  intro fuel
  induction fuel with
  | zero =>
    constructor
    · intro v eo st _ _ hfuel
      omega
    · intro edges st _ hfuel
      omega
  | succ n ih =>
    constructor
    · intro v eo st hvU hvW hfuel
      by_cases hvd : v = dst
      · refine ⟨dfsLeave { dfsEnter st v eo with
            paths := (dfsEnter st v eo).paths ++ [(dfsEnter st v eo).path] } v, ?_, ?_⟩
        · rw [dfsStep_inl, if_pos hvd]
        · exact removeV_insertV st.visited v hvW
      · have hedges : ∀ e ∈ adjOf g v, e.To ∈ U :=
          fun e he => hU _ (To_mem_targetsOf g v e he)
        have hcnt1 : cntUnvisited U (insertV st.visited v) * (M + 2)
            + (adjOf g v).length + 1 ≤ n := by
          have := hM v
          omega
        obtain ⟨st2, hstep, hvis⟩ := ih.2 (adjOf g v) (dfsEnter st v eo) hedges hcnt1
        refine ⟨dfsLeave st2 v, ?_, ?_⟩
        · rw [dfsStep_inl, if_neg hvd, hstep]
        · show removeV st2.visited v = st.visited
          rw [hvis]
          exact removeV_insertV st.visited v hvW
    · intro edges st hTo hfuel
      cases edges with
      | nil => exact ⟨st, rfl, rfl⟩
      | cons e rest =>
        rw [List.length_cons] at hfuel
        by_cases hmem : e.To ∈ st.visited
        · obtain ⟨st2, hstep, hvis⟩ :=
            ih.2 rest st (fun e2 he2 => hTo e2 (by simp [he2])) (by omega)
          refine ⟨st2, ?_, hvis⟩
          rw [dfsStep_inr_cons, if_pos hmem]
          exact hstep
        · have hTo2 : e.To ∈ U := hTo e (by simp)
          have hlt : cntUnvisited U (insertV st.visited e.To) + 1
              ≤ cntUnvisited U st.visited :=
            cnt_insertV_lt U st.visited e.To hTo2 hmem
          have hchild : cntUnvisited U (insertV st.visited e.To) * (M + 2)
              + M + 2 ≤ n := by
            have h1 : (cntUnvisited U (insertV st.visited e.To) + 1) * (M + 2)
                ≤ cntUnvisited U st.visited * (M + 2) :=
              Nat.mul_le_mul_right _ hlt
            rw [Nat.add_mul, Nat.one_mul] at h1
            omega
          obtain ⟨st2, hstep2, hvis2⟩ := ih.1 e.To (some e) st hTo2 hmem hchild
          have hcnt3 : cntUnvisited U st2.visited * (M + 2) + rest.length + 1 ≤ n := by
            rw [hvis2]
            omega
          obtain ⟨st3, hstep3, hvis3⟩ :=
            ih.2 rest st2 (fun e2 he2 => hTo e2 (by simp [he2])) hcnt3
          refine ⟨st3, ?_, by rw [hvis3, hvis2]⟩
          rw [dfsStep_inr_cons, if_neg hmem, hstep2]
          exact hstep3

/-- C9: for every graph, the dfs of Paths never exhausts the recursion
budget fuelBound — on any input, including graphs with directed cycles, the
enumeration completes and Paths returns the accumulated path list; the
visited-set is what makes the unvisited-vertex count strictly decrease
along any single descent. -/
theorem c9_paths_terminate (g : Graph) (src dst : Vertex) :
    ∃ st, dfsStep g dst (fuelBound g src) (.inl (src, none)) ⟨[], [], []⟩ = some st ∧
      Paths (some g) src dst = st.paths := by
  have hM : ∀ w : Vertex, (adjOf g w).length ≤ maxAdj g := adjOf_length_le g
  have hU : ∀ w ∈ targetsOf g, w ∈ (src :: targetsOf g) :=
    fun w hw => List.mem_cons_of_mem _ hw
  have main := dfs_enough_fuel g dst (src :: targetsOf g) (maxAdj g) hU hM
    (fuelBound g src)
  have hcnt : cntUnvisited (src :: targetsOf g) (insertV [] src) * (maxAdj g + 2)
      + maxAdj g + 2 ≤ fuelBound g src := by
    have h1 : cntUnvisited (src :: targetsOf g) (insertV [] src)
        ≤ (src :: targetsOf g).length := cnt_le_length _ _
    have h2 : cntUnvisited (src :: targetsOf g) (insertV [] src) * (maxAdj g + 2)
        ≤ (src :: targetsOf g).length * (maxAdj g + 2) :=
      Nat.mul_le_mul_right _ h1
    rw [fuelBound, Nat.add_mul, Nat.one_mul]
    omega
  obtain ⟨st, hst, _⟩ := main.1 src none ⟨[], [], []⟩ (by simp) (by simp) hcnt
  refine ⟨st, hst, ?_⟩
  simp [Paths, hst]

end Cspf
